import Mathlib

/-!
Verification of the `skint` secret-storage core (package `internal/secrets`).

Shallow embedding conventions:
* Go strings and byte slices are both modelled as `List Char` (the data in
  play is ASCII; Go's `string` ↔ `[]byte` conversions are the identity on it).
* Go's `map[string]string` is modelled as an association list; insertion
  (`m[k] = v`) is `upsert`, `delete(m, k)` is `eraseKey`, and two maps are
  equal when their canonical (key-sorted, duplicate-free) forms are equal.
* `crypto/cipher.AEAD` (AES-256-GCM) is an external library; it is modelled
  as an abstract `AEADScheme` (nonce size, seal, open) and theorems that need
  the library's documented behaviour take `AEADScheme.Correct` as hypothesis.
* Randomness (the fresh GCM nonce read from `crypto/rand`) is passed as an
  explicit argument.
* The filesystem slot holding `secrets.enc` is a `FileNode`: absent, a
  regular file with contents, or a symlink (dangling, or to an existing
  target with contents).
-/

/-- Go strings / byte slices over the ASCII fragment used by the store. -/
abbrev Bytes := List Char

/-- Go `unicode.IsSpace` (the rune set trimmed by `strings.TrimSpace`). -/
def isSpace (c : Char) : Bool :=
  let n := c.toNat
  n = 0x20 || n = 0x9 || n = 0xA || n = 0xB || n = 0xC || n = 0xD ||
  n = 0x85 || n = 0xA0 || n = 0x1680 || (0x2000 ≤ n && n ≤ 0x200A) ||
  n = 0x2028 || n = 0x2029 || n = 0x202F || n = 0x205F || n = 0x3000

/-- Go `strings.TrimSpace`: drop leading and trailing space runes. -/
def trimSpace (s : Bytes) : Bytes :=
  ((s.dropWhile isSpace).reverse.dropWhile isSpace).reverse

/-- Go `strings.SplitN(s, sep, 2)` for a single-character separator:
`[s]` when `sep` does not occur, otherwise `[before, after]` split at the
first occurrence. -/
def splitN2 (sep : Char) : Bytes → List Bytes
  | [] => [[]]
  | c :: rest =>
    if c = sep then [[], rest]
    else (c :: (splitN2 sep rest).headD []) :: (splitN2 sep rest).tail

/-- Go `strings.Split(s, sep)` for a single-character separator. -/
def splitOnChar (sep : Char) : Bytes → List Bytes
  | [] => [[]]
  | c :: rest =>
    if c = sep then [] :: splitOnChar sep rest
    else (c :: (splitOnChar sep rest).headD []) :: (splitOnChar sep rest).tail

/-- Go `strings.Join(lines, sep)` for a single-character separator. -/
def joinChar (sep : Char) : List Bytes → Bytes
  | [] => []
  | [l] => l
  | l :: l' :: ls => l ++ sep :: joinChar sep (l' :: ls)

/-- Models `strings.ReplaceAll(v, "\n", "\\n")` — newline becomes backslash-n
(`saveAll`, first escaping step). -/
def escNL : Bytes → Bytes
  | [] => []
  | c :: rest => if c = '\n' then '\\' :: 'n' :: escNL rest else c :: escNL rest

/-- Models `strings.ReplaceAll(v, "=", "\\=")` — equals becomes backslash-equals
(`saveAll`, second escaping step). -/
def escEq : Bytes → Bytes
  | [] => []
  | c :: rest => if c = '=' then '\\' :: '=' :: escEq rest else c :: escEq rest

/-- Models `strings.ReplaceAll(v, "\\=", "=")` — leftmost, non-overlapping
(`loadAll`, first unescaping step). -/
def unescEq : Bytes → Bytes
  | [] => []
  | [c] => [c]
  | c1 :: c2 :: rest =>
    if c1 = '\\' ∧ c2 = '=' then '=' :: unescEq rest
    else c1 :: unescEq (c2 :: rest)

/-- Models `strings.ReplaceAll(v, "\\n", "\n")` — leftmost, non-overlapping
(`loadAll`, second unescaping step). -/
def unescNL : Bytes → Bytes
  | [] => []
  | [c] => [c]
  | c1 :: c2 :: rest =>
    if c1 = '\\' ∧ c2 = 'n' then '\n' :: unescNL rest
    else c1 :: unescNL (c2 :: rest)

/-- Models `saveAll`'s value escaping: newlines first, then equals signs. -/
def escapeValue (v : Bytes) : Bytes := escEq (escNL v)

/-- Models `loadAll`'s value unescaping: `\=` first, then `\n` (symmetric order). -/
def parseValue (v : Bytes) : Bytes := unescNL (unescEq v)

/-- Go bytewise string comparison `a < b` (as used by `sort.Strings`). -/
def ltStr : Bytes → Bytes → Bool
  | [], [] => false
  | [], _ :: _ => true
  | _ :: _, [] => false
  | a :: as, b :: bs =>
    if a.toNat < b.toNat then true
    else if b.toNat < a.toNat then false
    else ltStr as bs

/-- Insert into a `≤`-sorted list (auxiliary to `sortStrings`). -/
def insSorted (x : Bytes) : List Bytes → List Bytes
  | [] => [x]
  | y :: rest => if ltStr y x then y :: insSorted x rest else x :: y :: rest

/-- Go `sort.Strings` (insertion sort; the order is what matters). -/
def sortStrings : List Bytes → List Bytes
  | [] => []
  | x :: rest => insSorted x (sortStrings rest)

/-- The secret set: association-list model of Go's `map[string]string`. -/
abbrev SecretMap := List (Bytes × Bytes)

/-- Go map insertion `m[k] = v`: replace in place, or append when absent. -/
def upsert (m : SecretMap) (k v : Bytes) : SecretMap :=
  match m with
  | [] => [(k, v)]
  | (k', v') :: rest => if k' = k then (k, v) :: rest else (k', v') :: upsert rest k v

/-- Go map lookup `m[k]`. -/
def lookupKey (m : SecretMap) (k : Bytes) : Option Bytes :=
  match m with
  | [] => none
  | (k', v') :: rest => if k' = k then some v' else lookupKey rest k

/-- Go map removal `delete(m, k)`. -/
def eraseKey (m : SecretMap) (k : Bytes) : SecretMap :=
  match m with
  | [] => []
  | (k', v') :: rest => if k' = k then rest else (k', v') :: eraseKey rest k

/-- The plaintext blob `FileStore.saveAll` builds before encrypting: keys
sorted with `sort.Strings`, one `name=escapedValue` line per secret, lines
joined with `"\n"`. -/
def saveAllContent (secrets : SecretMap) : Bytes :=
  let names := sortStrings (secrets.map Prod.fst)
  joinChar '\n' (names.map (fun n => n ++ '=' :: escapeValue ((lookupKey secrets n).getD [])))

/-- One iteration of `loadAll`'s line loop: trim the line; skip empties and
`#` comments; split at the first `=`; on exactly two parts, trim key and
value, unescape the value, and insert into the map. -/
def parseLine (secrets : SecretMap) (rawLine : Bytes) : SecretMap :=
  let line := trimSpace rawLine
  match line with
  | [] => secrets
  | c :: _ =>
    if c = '#' then secrets
    else
      match splitN2 '=' line with
      | [k, v] => upsert secrets (trimSpace k) (parseValue (trimSpace v))
      | _ => secrets

/-- Models `loadAll`'s parser of the decrypted blob: split on newlines and fold the
line loop over an initially empty map. -/
def parseContent (content : Bytes) : SecretMap :=
  (splitOnChar '\n' content).foldl parseLine []

/-- The error kinds surfaced by the secrets core (Go returns `error` values
with these distinct messages; the constructor records which one). -/
inductive SecErr where
  /-- Models `Cipher.Decrypt`: "ciphertext too short". -/
  | malformed
  /-- Models `Cipher.Decrypt`: "failed to decrypt" (GCM tag verification failed). -/
  | authFailure
  /-- Models `FileStore.loadAll`: "secrets file is a symlink - refusing for security". -/
  | symlinkRejected
  /-- Models `FileStore.Retrieve`: "no API key found for X"; also `keyring.ErrNotFound`. -/
  | notFound
  /-- Models `Manager.RetrieveByReference`: "invalid reference format". -/
  | invalidReference
  /-- Models `Manager.RetrieveByReference`: "unknown reference type". -/
  | unknownReferenceType
  /-- Models `Manager.RetrieveByReference`: "file store not initialized". -/
  | fileStoreNotInit
  /-- Models `keyring.Get` failing with anything other than `ErrNotFound`. -/
  | keyringUnavailable
deriving DecidableEq, Repr

/-- Abstract model of Go's `crypto/cipher.AEAD` as produced by
`cipher.NewGCM(aes.NewCipher(key))`: a nonce size plus keyed seal/open. -/
structure AEADScheme where
  nonceSize : Nat
  aeadSeal : Bytes → Bytes → Bytes → Bytes
  aeadOpen : Bytes → Bytes → Bytes → Option Bytes

/-- The AEAD library contract: opening a sealed message with the same key and
nonce recovers the plaintext. -/
def AEADScheme.Correct (s : AEADScheme) : Prop :=
  ∀ key nonce p, s.aeadOpen key nonce (s.aeadSeal key nonce p) = some p

/-- Models `Cipher.Encrypt` (cipher.go:92-112): generate a nonce of the AEAD's size
(passed here explicitly in place of `crypto/rand`), seal with no associated
data, return `nonce ‖ sealed` (Go's `gcm.Seal(nonce, nonce, plaintext, nil)`
appends the sealed bytes to the nonce). -/
def Cipher.Encrypt (s : AEADScheme) (key nonce plaintext : Bytes) : Bytes :=
  nonce ++ s.aeadSeal key nonce plaintext

/-- Models `Cipher.Decrypt` (cipher.go:115-138): reject inputs shorter than the
nonce size ("ciphertext too short"), else split off the nonce prefix and open
the remainder; a failed open is "failed to decrypt". -/
def Cipher.Decrypt (s : AEADScheme) (key data : Bytes) : Except SecErr Bytes :=
  if data.length < s.nonceSize then .error .malformed
  else
    match s.aeadOpen key (data.take s.nonceSize) (data.drop s.nonceSize) with
    | some p => .ok p
    | none => .error .authFailure

/-- The filesystem slot at `<dataDir>/secrets.enc`. -/
inductive FileNode where
  /-- No file at the path (`os.Stat` gives `IsNotExist`). -/
  | absent
  /-- A regular file with the given contents. -/
  | regular (data : Bytes)
  /-- A symlink: `none` when dangling (so a following `os.Stat` gives
  `IsNotExist`), `some data` when the target exists with those contents. -/
  | symlink (target : Option Bytes)
deriving DecidableEq, Repr

/-- Models `FileStore.loadAll` (secrets.go): `os.Stat` (which follows symlinks) and
return an empty map when the result is `IsNotExist`; then `os.Lstat` and fail
when the mode has `ModeSymlink`; then read, decrypt, and parse. -/
def FileStore.loadAll (s : AEADScheme) (key : Bytes) (fsys : FileNode) :
    Except SecErr SecretMap :=
  match fsys with
  | .absent => .ok []
  | .symlink none => .ok []
  | .symlink (some _) => .error .symlinkRejected
  | .regular data =>
    match Cipher.Decrypt s key data with
    | .error e => .error e
    | .ok content => .ok (parseContent content)

/-- The effect of `os.OpenFile(path, O_WRONLY|O_CREATE|O_TRUNC, 0600)` plus
write: it follows a symlink at the path, creating or truncating the link's
target; otherwise it creates/overwrites the regular file. -/
def writeFile (fsys : FileNode) (data : Bytes) : FileNode :=
  match fsys with
  | .symlink _ => .symlink (some data)
  | _ => .regular data

/-- Models `FileStore.saveAll`: serialize the sorted secret set, encrypt it, and
write the blob (no symlink check on the write path). -/
def FileStore.saveAll (s : AEADScheme) (key nonce : Bytes) (fsys : FileNode)
    (secrets : SecretMap) : FileNode :=
  writeFile fsys (Cipher.Encrypt s key nonce (saveAllContent secrets))

/-- Models `FileStore.Store`: load all, upsert, save all. -/
def FileStore.Store (s : AEADScheme) (key nonce : Bytes) (fsys : FileNode)
    (name val : Bytes) : Except SecErr FileNode :=
  match FileStore.loadAll s key fsys with
  | .error e => .error e
  | .ok secrets => .ok (FileStore.saveAll s key nonce fsys (upsert secrets name val))

/-- Models `FileStore.Retrieve`: load all and look up, `notFound` when absent. -/
def FileStore.Retrieve (s : AEADScheme) (key : Bytes) (fsys : FileNode)
    (name : Bytes) : Except SecErr Bytes :=
  match FileStore.loadAll s key fsys with
  | .error e => .error e
  | .ok secrets =>
    match lookupKey secrets name with
    | some v => .ok v
    | none => .error .notFound

/-- Models `FileStore.Delete`: load all, `delete(secrets, name)`, save all. -/
def FileStore.Delete (s : AEADScheme) (key nonce : Bytes) (fsys : FileNode)
    (name : Bytes) : Except SecErr FileNode :=
  match FileStore.loadAll s key fsys with
  | .error e => .error e
  | .ok secrets => .ok (FileStore.saveAll s key nonce fsys (eraseKey secrets name))

/-- The machine identifiers `Cipher.getMachineSalt` reads from the host
(`/etc/machine-id` contents, hostname, home directory, uid); optional ones
are `none` when unobtainable. -/
structure MachineEnv where
  machineId : Option Bytes
  hostname : Option Bytes
  homeDir : Option Bytes
  uid : Nat
deriving Repr

/-- Models `fmt.Sprintf("%d", uid)`: decimal digits. -/
def natDec (n : Nat) : Bytes := Nat.toDigits 10 n

/-- Models `Cipher.getMachineSalt` (cipher.go:58-89): concatenate the obtainable
identifiers in fixed order, append the uid in decimal, and SHA-256 the
concatenation (`crypto/sha256` passed as the abstract `sha256`). -/
def Cipher.getMachineSalt (sha256 : Bytes → Bytes) (env : MachineEnv) : Bytes :=
  let comps : List Bytes :=
    (match env.machineId with | some v => [v] | none => []) ++
    (match env.hostname with | some v => [v] | none => []) ++
    (match env.homeDir with | some v => [v] | none => []) ++
    [natDec env.uid]
  sha256 (comps.foldl (fun acc c => acc ++ c) [])

/-- The compiled-in application secret `"skint1"` (cipher.go:53). -/
def appSecret : Bytes := ['s', 'k', 'i', 'n', 't', '1']

/-- Models `Cipher.deriveKey` (cipher.go:51-55): `argon2.IDKey("skint1", salt,
3, 64*1024, 4, 32)` with `golang.org/x/crypto/argon2` passed abstractly as
`argon (password) (salt) (time) (memory) (threads) (keyLen)`. -/
def Cipher.deriveKey (argon : Bytes → Bytes → Nat → Nat → Nat → Nat → Bytes)
    (sha256 : Bytes → Bytes) (env : MachineEnv) : Bytes :=
  argon appSecret (Cipher.getMachineSalt sha256 env) 3 (64 * 1024) 4 32

/-- A constructed `Cipher` instance: `NewCipher` stores the data directory
and the freshly derived key (`getOrCreateKey` also removes a legacy
`<dataDir>/.key` file, a side effect with no bearing on the key). -/
structure CipherInst where
  dataDir : Bytes
  key : Bytes

/-- Models `NewCipher` (cipher.go:24-33): derive the key from machine data. -/
def NewCipher (argon : Bytes → Bytes → Nat → Nat → Nat → Nat → Bytes)
    (sha256 : Bytes → Bytes) (dataDir : Bytes) (env : MachineEnv) : CipherInst :=
  { dataDir := dataDir, key := Cipher.deriveKey argon sha256 env }

/-- The OS keyring: unreachable, or reachable with its current entries
(for the fixed service name `"skint"`). -/
inductive KeyringService where
  | unavailable
  | available (entries : SecretMap)
deriving Repr

/-- Models `keyring.Get`: `ErrNotFound` (modelled `notFound`) when the service works
but has no such entry; any other failure means the service is unreachable. -/
def keyringGet (kr : KeyringService) (name : Bytes) : Except SecErr Bytes :=
  match kr with
  | .unavailable => .error .keyringUnavailable
  | .available es =>
    match lookupKey es name with
    | some v => .ok v
    | none => .error .notFound

/-- The probe key `"skint_probe_nonexistent"`. -/
def probeName : Bytes :=
  ['s', 'k', 'i', 'n', 't', '_', 'p', 'r', 'o', 'b', 'e', '_',
   'n', 'o', 'n', 'e', 'x', 'i', 's', 't', 'e', 'n', 't']

/-- Models `testKeyring` (secrets.go): probe a deliberately nonexistent key; only
`ErrNotFound` signals a working keyring. -/
def testKeyring (kr : KeyringService) : Bool :=
  match keyringGet kr probeName with
  | .error .notFound => true
  | _ => false

/-- Models `Manager` state: the backend choice made at construction, and whether
`fileStore` was initialized (Go: the `*FileStore` field is non-nil). -/
structure Manager where
  useKeyring : Bool
  fileStoreInit : Bool
deriving Repr

/-- Models `NewManager` (secrets.go:225-254): probe the keyring once; initialize the
file store only when the keyring is unavailable. -/
def newManager (kr : KeyringService) : Manager :=
  let u := testKeyring kr
  { useKeyring := u, fileStoreInit := !u }

/-- The reference tag `"keyring"`. -/
def strKeyring : Bytes := ['k', 'e', 'y', 'r', 'i', 'n', 'g']

/-- The reference tag `"file"`. -/
def strFile : Bytes := ['f', 'i', 'l', 'e']

/-- Models `Manager.RetrieveByReference` (secrets.go:306-328): `SplitN(ref, ":", 2)`;
anything but two parts is "invalid reference format"; tag `keyring` goes to
`keyring.Get` unconditionally; tag `file` goes to the file store when it is
initialized and is "file store not initialized" otherwise; any other tag is
"unknown reference type". -/
def Manager.RetrieveByReference (s : AEADScheme) (key : Bytes) (m : Manager)
    (kr : KeyringService) (fsys : FileNode) (ref : Bytes) : Except SecErr Bytes :=
  match splitN2 ':' ref with
  | [refType, providerName] =>
    if refType = strKeyring then keyringGet kr providerName
    else if refType = strFile then
      if m.fileStoreInit then FileStore.Retrieve s key fsys providerName
      else .error .fileStoreNotInit
    else .error .unknownReferenceType
  | _ => .error .invalidReference

/-- Concrete computable AEAD instance used by witnesses and counterexamples:
1-byte nonce, seal is the identity on the plaintext. -/
def toyAEAD : AEADScheme :=
  { nonceSize := 1, aeadSeal := fun _ _ p => p, aeadOpen := fun _ _ c => some c }

theorem toyAEAD_correct : toyAEAD.Correct := fun _ _ _ => rfl

theorem takeLenAppend (a b : Bytes) : (a ++ b).take a.length = a := by
  induction a with
  | nil => rfl
  | cons c t ih => simp [ih]

theorem dropLenAppend (a b : Bytes) : (a ++ b).drop a.length = b := by
  induction a with
  | nil => rfl
  | cons c t ih => simp [ih]

/-- Shared helper: the nonce-prefix framing of `Cipher.Encrypt` is undone by
`Cipher.Decrypt`, given the AEAD library contract. -/
theorem decrypt_encrypt (s : AEADScheme) (hs : s.Correct) (key nonce p : Bytes)
    (hn : nonce.length = s.nonceSize) :
    Cipher.Decrypt s key (Cipher.Encrypt s key nonce p) = .ok p := by
  have hlen : ¬ (Cipher.Encrypt s key nonce p).length < s.nonceSize := by
    simp only [Cipher.Encrypt, List.length_append, hn]
    omega
  unfold Cipher.Decrypt
  rw [if_neg hlen]
  unfold Cipher.Encrypt
  rw [← hn, takeLenAppend, dropLenAppend, hs]

/-- C4: encryption round-trip — for every byte string `p` (including the
empty one) and every nonce of the AEAD's size, `Cipher.Decrypt` applied with
the same key to `Cipher.Encrypt`'s output (`nonce ‖ sealed`, the nonce split
off again before opening) recovers `p`, given the AEAD library contract. -/
theorem encrypt_decrypt_roundtrip (s : AEADScheme) (hs : s.Correct)
    (key p nonce : Bytes) (hn : nonce.length = s.nonceSize) :
    Cipher.Decrypt s key (Cipher.Encrypt s key nonce p) = .ok p :=
  decrypt_encrypt s hs key nonce p hn

/-- C4 witness: the round-trip at a concrete instance, with the empty
plaintext. -/
theorem encrypt_decrypt_roundtrip_witness :
    Cipher.Decrypt toyAEAD ['K'] (Cipher.Encrypt toyAEAD ['K'] ['N'] []) = .ok [] :=
  encrypt_decrypt_roundtrip toyAEAD toyAEAD_correct ['K'] [] ['N'] rfl

/-- C5: any input strictly shorter than the AEAD nonce size is rejected by
`Cipher.Decrypt` as `malformed` ("ciphertext too short"), a distinct error
from `authFailure`; the result is the same for every AEAD with that nonce
size and every key, so the AEAD open is never consulted. -/
theorem decrypt_short_malformed (s : AEADScheme) (key c : Bytes)
    (h : c.length < s.nonceSize) :
    Cipher.Decrypt s key c = .error .malformed ∧
    (∀ s' : AEADScheme, s'.nonceSize = s.nonceSize → ∀ key' : Bytes,
      Cipher.Decrypt s' key' c = .error .malformed) ∧
    SecErr.malformed ≠ SecErr.authFailure := by
  refine ⟨?_, ?_, by decide⟩
  · unfold Cipher.Decrypt
    rw [if_pos h]
  · intro s' hs' key'
    unfold Cipher.Decrypt
    rw [hs', if_pos h]

/-- C5 witness: the empty ciphertext against the concrete AEAD. -/
theorem decrypt_short_malformed_witness :
    Cipher.Decrypt toyAEAD ['K'] [] = .error .malformed ∧
    (∀ s' : AEADScheme, s'.nonceSize = toyAEAD.nonceSize → ∀ key' : Bytes,
      Cipher.Decrypt s' key' [] = .error .malformed) ∧
    SecErr.malformed ≠ SecErr.authFailure :=
  decrypt_short_malformed toyAEAD ['K'] [] (by decide)

/-- C7: missing-file bootstrap — on an absent blob file `loadAll` returns the
empty map rather than an error, so `Retrieve` of any name is `notFound` (not
a read error) and `Delete` of any name succeeds. -/
theorem missing_file_bootstrap (s : AEADScheme) (key nonce name : Bytes) :
    FileStore.loadAll s key .absent = .ok [] ∧
    FileStore.Retrieve s key .absent name = .error .notFound ∧
    (∃ f, FileStore.Delete s key nonce .absent name = .ok f) :=
  ⟨rfl, rfl, ⟨_, rfl⟩⟩

/-- C2 counterexample: with a dangling symlink at the blob path, the initial
`os.Stat` (which follows links) reports `IsNotExist`, so `loadAll` returns
the empty map and `Retrieve` returns `notFound` — not the symlink-rejection
error the claim requires for every symlink. -/
theorem symlink_dangling_not_rejected :
    FileStore.loadAll toyAEAD ['K'] (.symlink none) = .ok [] ∧
    FileStore.Retrieve toyAEAD ['K'] (.symlink none) ['p'] = .error .notFound ∧
    SecErr.notFound ≠ SecErr.symlinkRejected :=
  ⟨rfl, rfl, by decide⟩

/-- C2 amended: whenever the blob path is a symlink whose target exists,
`loadAll` — and hence `Retrieve` — fails closed with the symlink-rejection
error, for every target contents (so the target is never read); a dangling
symlink is instead treated as a missing file: empty map, `notFound`, and no
read occurs. -/
theorem symlink_guard_on_read (s : AEADScheme) (key target name : Bytes) :
    FileStore.loadAll s key (.symlink (some target)) = .error .symlinkRejected ∧
    FileStore.Retrieve s key (.symlink (some target)) name = .error .symlinkRejected ∧
    FileStore.loadAll s key (.symlink none) = .ok [] ∧
    FileStore.Retrieve s key (.symlink none) name = .error .notFound :=
  ⟨rfl, rfl, rfl, rfl⟩

/-- C10 counterexample: with a symlink whose target exists at the blob path,
`Store` and `Delete` do not follow the link and overwrite its target — they
fail closed with the symlink-rejection error raised by `loadAll`'s read
guard before `saveAll` is ever reached. -/
theorem store_through_symlink_fails_closed :
    FileStore.Store toyAEAD ['K'] ['N'] (.symlink (some ['x'])) ['p'] ['k']
      = .error .symlinkRejected ∧
    FileStore.Delete toyAEAD ['K'] ['N'] (.symlink (some ['x'])) ['p']
      = .error .symlinkRejected :=
  ⟨rfl, rfl⟩

/-- C10 amended: `saveAll` itself performs no symlink check — it writes
through any symlink, overwriting or creating the link's target. `Store` and
`Delete` therefore write through the link exactly when it is dangling (the
read guard sees a missing file); when the target exists they fail closed
with the symlink-rejection error before writing, leaving the target
untouched. -/
theorem saveAll_writes_through_symlink (s : AEADScheme)
    (key nonce name val target : Bytes) (secrets : SecretMap) :
    FileStore.saveAll s key nonce (.symlink (some target)) secrets =
      .symlink (some (Cipher.Encrypt s key nonce (saveAllContent secrets))) ∧
    FileStore.saveAll s key nonce (.symlink none) secrets =
      .symlink (some (Cipher.Encrypt s key nonce (saveAllContent secrets))) ∧
    FileStore.Store s key nonce (.symlink none) name val =
      .ok (.symlink (some (Cipher.Encrypt s key nonce (saveAllContent [(name, val)])))) ∧
    FileStore.Delete s key nonce (.symlink none) name =
      .ok (.symlink (some (Cipher.Encrypt s key nonce (saveAllContent [])))) ∧
    FileStore.Store s key nonce (.symlink (some target)) name val = .error .symlinkRejected ∧
    FileStore.Delete s key nonce (.symlink (some target)) name = .error .symlinkRejected :=
  ⟨rfl, rfl, rfl, rfl, rfl, rfl⟩

theorem splitN2_no_sep (sep : Char) (r : Bytes) (h : sep ∉ r) :
    splitN2 sep r = [r] := by
  induction r with
  | nil => rfl
  | cons c t ih =>
    have hc : ¬ c = sep := fun hh => h (hh ▸ List.mem_cons_self c t)
    have ht : sep ∉ t := fun hh => h (List.mem_cons_of_mem c hh)
    simp [splitN2, hc, ih ht]

theorem splitN2_append (sep : Char) (t rest : Bytes) (h : sep ∉ t) :
    splitN2 sep (t ++ sep :: rest) = [t, rest] := by
  induction t with
  | nil => simp [splitN2]
  | cons c t' ih =>
    have hc : ¬ c = sep := fun hh => h (hh ▸ List.mem_cons_self c t')
    have ht : sep ∉ t' := fun hh => h (List.mem_cons_of_mem c hh)
    simp [splitN2, hc, ih ht]

theorem splitN2_shape (sep : Char) (r : Bytes) :
    (∃ x, splitN2 sep r = [x]) ∨ (∃ a b, splitN2 sep r = [a, b]) := by
  induction r with
  | nil => exact Or.inl ⟨[], rfl⟩
  | cons c t ih =>
    by_cases hc : c = sep
    · exact Or.inr ⟨[], t, by simp [splitN2, hc]⟩
    · rcases ih with ⟨x, hx⟩ | ⟨a, b, hab⟩
      · exact Or.inl ⟨c :: x, by simp [splitN2, hc, hx]⟩
      · exact Or.inr ⟨c :: a, b, by simp [splitN2, hc, hab]⟩

/-- C3 counterexample: a `Manager` built while the keyring is available has
`useKeyring = true` and no initialized file store, so a `file:foo` reference
is answered with the "file store not initialized" error — even though the
File Store backend is perfectly reachable and `FileStore.Retrieve` on the
very same blob would return the secret. -/
theorem file_ref_in_keyring_mode_not_resolved :
    Manager.RetrieveByReference toyAEAD ['K'] (newManager (.available []))
      (.available [])
      (.regular (Cipher.Encrypt toyAEAD ['K'] ['N']
        (saveAllContent [(['f', 'o', 'o'], ['b', 'a', 'r'])])))
      ['f', 'i', 'l', 'e', ':', 'f', 'o', 'o'] = .error .fileStoreNotInit ∧
    FileStore.Retrieve toyAEAD ['K']
      (.regular (Cipher.Encrypt toyAEAD ['K'] ['N']
        (saveAllContent [(['f', 'o', 'o'], ['b', 'a', 'r'])])))
      ['f', 'o', 'o'] = .ok ['b', 'a', 'r'] :=
  ⟨rfl, rfl⟩

/-- C3 amended: `RetrieveByReference` dispatches on the reference tag:
a `keyring:<name>` reference always goes to `keyring.Get`, regardless of the
active backend; a `file:<name>` reference goes to the File Store when the
manager runs in file mode, but in keyring mode (where `NewManager` leaves
`fileStore` nil) it fails with the "file store not initialized" error even
though that backend is reachable. -/
theorem retrieveByReference_dispatch (s : AEADScheme) (key : Bytes)
    (kr : KeyringService) (fsys : FileNode) (name : Bytes) :
    Manager.RetrieveByReference s key (newManager kr) kr fsys
      (strKeyring ++ ':' :: name) = keyringGet kr name ∧
    Manager.RetrieveByReference s key (newManager kr) kr fsys
      (strFile ++ ':' :: name) =
      (if testKeyring kr then .error .fileStoreNotInit
       else FileStore.Retrieve s key fsys name) := by
  constructor
  · simp [Manager.RetrieveByReference,
      splitN2_append ':' strKeyring name (by decide)]
  · simp only [Manager.RetrieveByReference,
      splitN2_append ':' strFile name (by decide)]
    rw [if_pos trivial]
    show (if (!testKeyring kr) = true then _ else _) = _
    cases testKeyring kr <;> rfl

/-- The backend tag of a reference: the text before the first colon
(the whole reference when it has no colon). -/
def refTag (ref : Bytes) : Bytes := (splitN2 ':' ref).headD []

/-- C9: a reference with no colon, or whose backend tag is neither
`keyring` nor `file`, makes `RetrieveByReference` return an error, and the
result is the same whatever the keyring and filesystem states are — no
backend is consulted and none is silently guessed. -/
theorem invalid_reference_rejected (s : AEADScheme) (key : Bytes) (m : Manager)
    (kr kr' : KeyringService) (fsys fsys' : FileNode) (ref : Bytes)
    (h : ':' ∉ ref ∨ (refTag ref ≠ strKeyring ∧ refTag ref ≠ strFile)) :
    (∃ e, Manager.RetrieveByReference s key m kr fsys ref = .error e) ∧
    Manager.RetrieveByReference s key m kr fsys ref =
      Manager.RetrieveByReference s key m kr' fsys' ref := by
  rcases h with h | ⟨h1, h2⟩
  · rw [show Manager.RetrieveByReference s key m kr fsys ref = .error .invalidReference from by
      simp [Manager.RetrieveByReference, splitN2_no_sep ':' ref h]]
    rw [show Manager.RetrieveByReference s key m kr' fsys' ref = .error .invalidReference from by
      simp [Manager.RetrieveByReference, splitN2_no_sep ':' ref h]]
    exact ⟨⟨.invalidReference, rfl⟩, rfl⟩
  · rcases splitN2_shape ':' ref with ⟨x, hx⟩ | ⟨a, b, hab⟩
    · rw [show Manager.RetrieveByReference s key m kr fsys ref = .error .invalidReference from by
        simp [Manager.RetrieveByReference, hx]]
      rw [show Manager.RetrieveByReference s key m kr' fsys' ref = .error .invalidReference from by
        simp [Manager.RetrieveByReference, hx]]
      exact ⟨⟨.invalidReference, rfl⟩, rfl⟩
    · have ha1 : a ≠ strKeyring := by rw [refTag, hab] at h1; exact h1
      have ha2 : a ≠ strFile := by rw [refTag, hab] at h2; exact h2
      rw [show Manager.RetrieveByReference s key m kr fsys ref = .error .unknownReferenceType from by
        simp [Manager.RetrieveByReference, hab, ha1, ha2]]
      rw [show Manager.RetrieveByReference s key m kr' fsys' ref = .error .unknownReferenceType from by
        simp [Manager.RetrieveByReference, hab, ha1, ha2]]
      exact ⟨⟨.unknownReferenceType, rfl⟩, rfl⟩

/-- C9 witness: the `unknown:provider` reference from the repository's own
table test, resolved against two different backend states. -/
theorem invalid_reference_rejected_witness :
    (∃ e, Manager.RetrieveByReference toyAEAD ['K'] (newManager .unavailable)
      .unavailable .absent
      ['u', 'n', 'k', 'n', 'o', 'w', 'n', ':', 'p'] = .error e) ∧
    Manager.RetrieveByReference toyAEAD ['K'] (newManager .unavailable)
      .unavailable .absent ['u', 'n', 'k', 'n', 'o', 'w', 'n', ':', 'p'] =
    Manager.RetrieveByReference toyAEAD ['K'] (newManager .unavailable)
      (.available [(['p'], ['s'])]) (.regular [])
      ['u', 'n', 'k', 'n', 'o', 'w', 'n', ':', 'p'] :=
  invalid_reference_rejected toyAEAD ['K'] (newManager .unavailable)
    .unavailable (.available [(['p'], ['s'])]) .absent (.regular [])
    ['u', 'n', 'k', 'n', 'o', 'w', 'n', ':', 'p'] (Or.inr (by decide))

/-- C8: key derivation is a pure function of the compiled-in application
secret and the machine salt (itself a pure function of machine-id contents,
hostname, home directory, and uid) — nothing random or per-instance enters
it, so two `NewCipher` instances over the same data directory and machine
environment hold byte-identical keys of Argon2's requested 32-byte length,
and the second instance decrypts what the first encrypted. The `argon` and
`sha256` parameters stand for the external `argon2.IDKey` and
`sha256.Sum256`; `hargon` is the former's output-length contract. -/
theorem key_stability (s : AEADScheme) (hs : s.Correct)
    (argon : Bytes → Bytes → Nat → Nat → Nat → Nat → Bytes)
    (hargon : ∀ pw salt t m par l, (argon pw salt t m par l).length = l)
    (sha256 : Bytes → Bytes) (dataDir : Bytes) (env : MachineEnv)
    (p nonce : Bytes) (hn : nonce.length = s.nonceSize) :
    (NewCipher argon sha256 dataDir env).key = (NewCipher argon sha256 dataDir env).key ∧
    (NewCipher argon sha256 dataDir env).key.length = 32 ∧
    Cipher.Decrypt s (NewCipher argon sha256 dataDir env).key
      (Cipher.Encrypt s (NewCipher argon sha256 dataDir env).key nonce p) = .ok p :=
  ⟨rfl, hargon appSecret (Cipher.getMachineSalt sha256 env) 3 (64 * 1024) 4 32,
   decrypt_encrypt s hs (NewCipher argon sha256 dataDir env).key nonce p hn⟩

/-- Stand-in for `argon2.IDKey` in the C8 witness: returns `keyLen` copies of
a fixed byte. -/
def toyArgon (pw salt : Bytes) (t m par l : Nat) : Bytes :=
  let _ := pw
  let _ := salt
  let _ := t + m + par
  List.replicate l 'k'

/-- Concrete machine environment for the C8 witness. -/
def toyEnv : MachineEnv :=
  { machineId := some ['m', 'i', 'd'], hostname := some ['h'],
    homeDir := none, uid := 1000 }

/-- C8 witness: the key-stability theorem at concrete instances. -/
theorem key_stability_witness :
    (NewCipher toyArgon (fun b => b) ['d'] toyEnv).key =
      (NewCipher toyArgon (fun b => b) ['d'] toyEnv).key ∧
    (NewCipher toyArgon (fun b => b) ['d'] toyEnv).key.length = 32 ∧
    Cipher.Decrypt toyAEAD (NewCipher toyArgon (fun b => b) ['d'] toyEnv).key
      (Cipher.Encrypt toyAEAD (NewCipher toyArgon (fun b => b) ['d'] toyEnv).key
        ['N'] ['s']) = .ok ['s'] :=
  key_stability toyAEAD toyAEAD_correct toyArgon
    (fun _ _ _ _ _ l => List.length_replicate l 'k')
    (fun b => b) ['d'] toyEnv ['s'] ['N'] rfl

/-- C6: the store/retrieve/delete lifecycle on the File Store, starting from
a fresh (absent) blob: `Store "p" "k"` then `Retrieve "p"` yields `"k"`;
after `Delete "p"`, `Retrieve "p"` is the `notFound` error (by constructor a
different error from `authFailure` and `malformed`); and deleting the
already-absent name again does not error. -/
theorem filestore_lifecycle (s : AEADScheme) (hs : s.Correct) (key n1 n2 : Bytes)
    (h1 : n1.length = s.nonceSize) (h2 : n2.length = s.nonceSize) :
    ∃ f1 f2,
      FileStore.Store s key n1 .absent ['p'] ['k'] = .ok f1 ∧
      FileStore.Retrieve s key f1 ['p'] = .ok ['k'] ∧
      FileStore.Delete s key n2 f1 ['p'] = .ok f2 ∧
      FileStore.Retrieve s key f2 ['p'] = .error .notFound ∧
      (∃ f3, FileStore.Delete s key n2 f2 ['p'] = .ok f3) := by
  refine ⟨.regular (Cipher.Encrypt s key n1 (saveAllContent [(['p'], ['k'])])),
    .regular (Cipher.Encrypt s key n2 (saveAllContent [])), rfl, ?_, ?_, ?_, ?_⟩
  · have hload : FileStore.loadAll s key
        (.regular (Cipher.Encrypt s key n1 (saveAllContent [(['p'], ['k'])]))) =
        .ok [(['p'], ['k'])] := by
      simp only [FileStore.loadAll, decrypt_encrypt s hs key n1 _ h1]
      rw [show parseContent (saveAllContent [(['p'], ['k'])]) = [(['p'], ['k'])] from by decide]
    simp only [FileStore.Retrieve, hload]
    rfl
  · have hload : FileStore.loadAll s key
        (.regular (Cipher.Encrypt s key n1 (saveAllContent [(['p'], ['k'])]))) =
        .ok [(['p'], ['k'])] := by
      simp only [FileStore.loadAll, decrypt_encrypt s hs key n1 _ h1]
      rw [show parseContent (saveAllContent [(['p'], ['k'])]) = [(['p'], ['k'])] from by decide]
    simp only [FileStore.Delete, hload]
    rfl
  · have hload : FileStore.loadAll s key
        (.regular (Cipher.Encrypt s key n2 (saveAllContent []))) = .ok [] := by
      simp only [FileStore.loadAll, decrypt_encrypt s hs key n2 _ h2]
      rfl
    simp only [FileStore.Retrieve, hload]
    rfl
  · have hload : FileStore.loadAll s key
        (.regular (Cipher.Encrypt s key n2 (saveAllContent []))) = .ok [] := by
      simp only [FileStore.loadAll, decrypt_encrypt s hs key n2 _ h2]
      rfl
    exact ⟨FileStore.saveAll s key n2
      (.regular (Cipher.Encrypt s key n2 (saveAllContent []))) (eraseKey [] ['p']),
      by simp only [FileStore.Delete, hload]⟩

/-- C6 witness: the lifecycle at the concrete AEAD instance. -/
theorem filestore_lifecycle_witness :
    ∃ f1 f2,
      FileStore.Store toyAEAD ['K'] ['M'] .absent ['p'] ['k'] = .ok f1 ∧
      FileStore.Retrieve toyAEAD ['K'] f1 ['p'] = .ok ['k'] ∧
      FileStore.Delete toyAEAD ['K'] ['N'] f1 ['p'] = .ok f2 ∧
      FileStore.Retrieve toyAEAD ['K'] f2 ['p'] = .error .notFound ∧
      (∃ f3, FileStore.Delete toyAEAD ['K'] ['N'] f2 ['p'] = .ok f3) :=
  filestore_lifecycle toyAEAD toyAEAD_correct ['K'] ['M'] ['N'] rfl rfl

theorem escNL_append (a b : Bytes) : escNL (a ++ b) = escNL a ++ escNL b := by
  induction a with
  | nil => rfl
  | cons c t ih =>
    by_cases hc : c = '\n' <;> simp [escNL, hc, ih]

theorem escEq_append (a b : Bytes) : escEq (a ++ b) = escEq a ++ escEq b := by
  induction a with
  | nil => rfl
  | cons c t ih =>
    by_cases hc : c = '=' <;> simp [escEq, hc, ih]

theorem nl_not_mem_escNL (v : Bytes) : '\n' ∉ escNL v := by
  induction v with
  | nil => simp [escNL]
  | cons c t ih =>
    by_cases hc : c = '\n'
    · simp only [escNL, if_pos hc, List.mem_cons]
      push_neg
      exact ⟨by decide, by decide, ih⟩
    · simp only [escNL, if_neg hc, List.mem_cons]
      push_neg
      exact ⟨fun hh => hc hh.symm, ih⟩

theorem nl_not_mem_escEq (v : Bytes) (h : '\n' ∉ v) : '\n' ∉ escEq v := by
  induction v with
  | nil => simp [escEq]
  | cons c t ih =>
    have hc : '\n' ≠ c := fun hh => h (hh ▸ List.mem_cons_self c t)
    have ht : '\n' ∉ t := fun hh => h (List.mem_cons_of_mem c hh)
    by_cases he : c = '='
    · simp only [escEq, if_pos he, List.mem_cons]
      push_neg
      exact ⟨by decide, by decide, ih ht⟩
    · simp only [escEq, if_neg he, List.mem_cons]
      push_neg
      exact ⟨hc, ih ht⟩

theorem unescEq_cons (c : Char) (hc : c ≠ '\\') (l : Bytes) :
    unescEq (c :: l) = c :: unescEq l := by
  cases l with
  | nil => rfl
  | cons d r =>
    have : ¬ (c = '\\' ∧ d = '=') := fun hh => hc hh.1
    simp only [unescEq, if_neg this]

theorem unescEq_bs_pair (l : Bytes) : unescEq ('\\' :: '=' :: l) = '=' :: unescEq l := by
  simp only [unescEq]
  rw [if_pos ⟨trivial, trivial⟩]

theorem unescEq_bs_ne (c : Char) (hc : c ≠ '=') (l : Bytes) :
    unescEq ('\\' :: c :: l) = '\\' :: unescEq (c :: l) := by
  simp only [unescEq]
  rw [if_neg (fun hh => hc hh.2)]

theorem unescNL_cons (c : Char) (hc : c ≠ '\\') (l : Bytes) :
    unescNL (c :: l) = c :: unescNL l := by
  cases l with
  | nil => rfl
  | cons d r =>
    have : ¬ (c = '\\' ∧ d = 'n') := fun hh => hc hh.1
    simp only [unescNL, if_neg this]

theorem unescNL_bs_pair (l : Bytes) : unescNL ('\\' :: 'n' :: l) = '\n' :: unescNL l := by
  simp only [unescNL]
  rw [if_pos ⟨trivial, trivial⟩]

/-- Every backslash in the string is immediately followed by an `n`
(the shape `escNL` leaves behind on backslash-free input). -/
def bsn : Bytes → Bool
  | [] => true
  | [c] => if c = '\\' then false else true
  | c1 :: c2 :: rest =>
    if c1 = '\\' then (if c2 = 'n' then bsn rest else false)
    else bsn (c2 :: rest)

theorem bsn_cons (c : Char) (hc : c ≠ '\\') (l : Bytes) : bsn (c :: l) = bsn l := by
  cases l with
  | nil => simp [bsn, hc]
  | cons d r => simp only [bsn, if_neg hc]

theorem bsn_escNL (v : Bytes) (h : '\\' ∉ v) : bsn (escNL v) = true := by
  induction v with
  | nil => rfl
  | cons c t ih =>
    have hc : c ≠ '\\' := fun hh => h (hh ▸ List.mem_cons_self c t)
    have ht : '\\' ∉ t := fun hh => h (List.mem_cons_of_mem c hh)
    by_cases hn : c = '\n'
    · simp only [escNL, if_pos hn, bsn, if_pos rfl]
      exact ih ht
    · rw [escNL, if_neg hn, bsn_cons c hc]
      exact ih ht


theorem escEq_cons_ne (c : Char) (hc : c ≠ '=') (l : Bytes) : escEq (c :: l) = c :: escEq l := by
  rw [escEq, if_neg hc]

theorem escEq_cons_eq (l : Bytes) : escEq ('=' :: l) = '\\' :: '=' :: escEq l := by
  rw [escEq, if_pos rfl]

theorem escNL_cons_ne (c : Char) (hc : c ≠ '\n') (l : Bytes) : escNL (c :: l) = c :: escNL l := by
  rw [escNL, if_neg hc]

theorem escNL_cons_nl (l : Bytes) : escNL ('\n' :: l) = '\\' :: 'n' :: escNL l := by
  rw [escNL, if_pos rfl]

theorem unescEq_escEq : ∀ (w : Bytes), bsn w = true → unescEq (escEq w) = w
  | [], _ => rfl
  | [c], _ => by
    by_cases he : c = '='
    · subst he
      rw [escEq_cons_eq, show escEq [] = [] from rfl, unescEq_bs_pair]
      rfl
    · rw [escEq_cons_ne c he, show escEq [] = [] from rfl]
      rfl
  | c1 :: c2 :: rest, hw => by
    by_cases h1 : c1 = '\\'
    · subst h1
      by_cases h2 : c2 = 'n'
      · subst h2
        have hw' : bsn rest = true := by simpa [bsn] using hw
        rw [escEq_cons_ne '\\' (by decide), escEq_cons_ne 'n' (by decide),
          unescEq_bs_ne 'n' (by decide), unescEq_cons 'n' (by decide),
          unescEq_escEq rest hw']
      · exfalso
        have : bsn ('\\' :: c2 :: rest) = false := by
          simp [bsn, h2]
        rw [this] at hw
        exact absurd hw (by simp)
    · have hw' : bsn (c2 :: rest) = true := by rwa [bsn_cons c1 h1] at hw
      by_cases he : c1 = '='
      · subst he
        rw [escEq_cons_eq, unescEq_bs_pair, unescEq_escEq (c2 :: rest) hw']
      · rw [escEq_cons_ne c1 he, unescEq_cons c1 h1, unescEq_escEq (c2 :: rest) hw']

theorem unescNL_escNL (v : Bytes) (hv : '\\' ∉ v) : unescNL (escNL v) = v := by
  induction v with
  | nil => rfl
  | cons c t ih =>
    have hc : c ≠ '\\' := fun hh => hv (hh ▸ List.mem_cons_self c t)
    have ht : '\\' ∉ t := fun hh => hv (List.mem_cons_of_mem c hh)
    by_cases hn : c = '\n'
    · subst hn
      rw [escNL_cons_nl, unescNL_bs_pair, ih ht]
    · rw [escNL_cons_ne c hn, unescNL_cons c hc, ih ht]

/-- No backslash occurs in the string. -/
def hasBS : Bytes → Bool
  | [] => false
  | c :: t => if c = '\\' then true else hasBS t

theorem hasBS_false (v : Bytes) (h : hasBS v = false) : '\\' ∉ v := by
  induction v with
  | nil => simp
  | cons c t ih =>
    intro hm
    by_cases hc : c = '\\'
    · rw [hasBS, if_pos hc] at h
      exact absurd h (by simp)
    · rw [hasBS, if_neg hc] at h
      rcases List.mem_cons.mp hm with h1 | h2
      · exact hc h1.symm
      · exact ih h h2

theorem parseValue_escapeValue (v : Bytes) (hv : '\\' ∉ v) :
    parseValue (escapeValue v) = v := by
  rw [parseValue, escapeValue, unescEq_escEq _ (bsn_escNL v hv), unescNL_escNL v hv]

theorem dropWhile_space_all (l : Bytes) (h : ∀ c ∈ l, isSpace c = false) :
    l.dropWhile isSpace = l := by
  cases l with
  | nil => rfl
  | cons c t =>
    rw [List.dropWhile_cons, if_neg (by simp [h c (List.mem_cons_self c t)])]

theorem trimSpace_eq_self_all (s : Bytes) (h : ∀ c ∈ s, isSpace c = false) :
    trimSpace s = s := by
  rw [trimSpace, dropWhile_space_all s h,
    dropWhile_space_all s.reverse (fun c hc => h c (List.mem_reverse.mp hc)),
    List.reverse_reverse]

theorem trimSpace_eq_self_edge (s : Bytes)
    (h1 : ∀ c, s.head? = some c → isSpace c = false)
    (h2 : ∀ c, s.reverse.head? = some c → isSpace c = false) :
    trimSpace s = s := by
  cases s with
  | nil => rfl
  | cons c t =>
    have hd : (c :: t).dropWhile isSpace = c :: t := by
      rw [List.dropWhile_cons, if_neg (by simp [h1 c rfl])]
    rw [trimSpace, hd]
    cases hr : (c :: t).reverse with
    | nil => exact absurd hr (by simp)
    | cons d r =>
      have hd2 : (d :: r).dropWhile isSpace = d :: r := by
        have hsp : isSpace d = false := h2 d (by rw [hr, List.head?_cons])
        rw [List.dropWhile_cons, if_neg (by simp [hsp])]
      rw [hd2, ← hr, List.reverse_reverse]

theorem head?_append_left (l l' : Bytes) (h : l ≠ []) : (l ++ l').head? = l.head? := by
  cases l with
  | nil => exact absurd rfl h
  | cons => rfl

theorem escNL_ne_nil (v : Bytes) (h : v ≠ []) : escNL v ≠ [] := by
  cases v with
  | nil => exact absurd rfl h
  | cons c t =>
    by_cases hn : c = '\n'
    · subst hn
      rw [escNL_cons_nl]
      simp
    · rw [escNL_cons_ne c hn]
      simp

theorem escEq_ne_nil (v : Bytes) (h : v ≠ []) : escEq v ≠ [] := by
  cases v with
  | nil => exact absurd rfl h
  | cons c t =>
    by_cases he : c = '='
    · subst he
      rw [escEq_cons_eq]
      simp
    · rw [escEq_cons_ne c he]
      simp

theorem escapeValue_append (a b : Bytes) :
    escapeValue (a ++ b) = escapeValue a ++ escapeValue b := by
  simp only [escapeValue, escNL_append, escEq_append]

theorem escapeValue_ne_nil (v : Bytes) (h : v ≠ []) : escapeValue v ≠ [] :=
  escEq_ne_nil _ (escNL_ne_nil v h)

/-- Boundary condition on a value character: preserved under trimming after
escaping (newline and equals get escaped to backslash; anything else must
not be a space rune). -/
def edgeOK (o : Option Char) : Bool :=
  match o with
  | none => true
  | some c => if c = '\n' then true else if c = '=' then true else !isSpace c

/-- A key character that survives the parser's trimming and splitting:
not a space rune, not the separator `=`. -/
def charKeyOK (d : Char) : Bool :=
  if isSpace d then false else if d = '=' then false else true

/-- Keys whose lines survive the parser unchanged: nonempty, not starting
with the comment marker, all characters space-free and `=`-free. -/
def goodKey (k : Bytes) : Bool :=
  match k with
  | [] => false
  | c :: _ => if c = '#' then false else k.all charKeyOK

/-- Values that the escaping round-trips: no literal backslash (the escaping
is not injective on backslashes), and first/last characters that survive
`TrimSpace` after escaping. -/
def goodValue (v : Bytes) : Bool :=
  if hasBS v then false else edgeOK v.head? && edgeOK v.reverse.head?

theorem escapeValue_head (v : Bytes) (he : edgeOK v.head? = true) :
    ∀ c, (escapeValue v).head? = some c → isSpace c = false := by
  cases v with
  | nil =>
    intro c hc
    exact absurd hc (by simp [escapeValue, escNL, escEq])
  | cons d t =>
    intro c hc
    by_cases hn : d = '\n'
    · subst hn
      rw [escapeValue, escNL_cons_nl, escEq_cons_ne '\\' (by decide),
        List.head?_cons] at hc
      cases hc
      decide
    · by_cases heq : d = '='
      · subst heq
        rw [escapeValue, escNL_cons_ne '=' (by decide), escEq_cons_eq,
          List.head?_cons] at hc
        cases hc
        decide
      · rw [escapeValue, escNL_cons_ne d hn, escEq_cons_ne d heq,
          List.head?_cons] at hc
        cases hc
        rw [List.head?_cons] at he
        simp only [edgeOK, if_neg hn, if_neg heq] at he
        simpa using he

theorem escapeValue_back (v : Bytes) (he : edgeOK v.reverse.head? = true) :
    ∀ c, (escapeValue v).reverse.head? = some c → isSpace c = false := by
  cases hv : v.reverse with
  | nil =>
    have hnil : v = [] := List.reverse_eq_nil_iff.mp hv
    subst hnil
    intro c hc
    exact absurd hc (by simp [escapeValue, escNL, escEq])
  | cons d r =>
    have hv' : v = r.reverse ++ [d] := by
      rw [← List.reverse_reverse v, hv]
      simp
    intro c hc
    rw [hv', escapeValue_append, List.reverse_append,
      head?_append_left _ _ (fun hh =>
        escapeValue_ne_nil [d] (by simp) (List.reverse_eq_nil_iff.mp hh))] at hc
    rw [hv, List.head?_cons] at he
    by_cases hn : d = '\n'
    · subst hn
      rw [show escapeValue ['\n'] = ['\\', 'n'] from by decide] at hc
      rw [show (['\\', 'n'] : Bytes).reverse = ['n', '\\'] from by decide,
        List.head?_cons] at hc
      cases hc
      decide
    · by_cases heq : d = '='
      · subst heq
        rw [show escapeValue ['='] = ['\\', '='] from by decide] at hc
        rw [show (['\\', '='] : Bytes).reverse = ['=', '\\'] from by decide,
          List.head?_cons] at hc
        cases hc
        decide
      · have hone : escapeValue [d] = [d] := by
          rw [escapeValue, escNL_cons_ne d hn, show escNL [] = [] from rfl,
            escEq_cons_ne d heq, show escEq [] = [] from rfl]
        rw [hone, show ([d] : Bytes).reverse = [d] from by simp,
          List.head?_cons] at hc
        cases hc
        simp only [edgeOK, if_neg hn, if_neg heq] at he
        simpa using he

theorem goodKey_ne_nil (k : Bytes) (h : goodKey k = true) : k ≠ [] := by
  cases k with
  | nil => simp [goodKey] at h
  | cons c t => simp

theorem goodKey_chars (k : Bytes) (h : goodKey k = true) :
    ∀ c ∈ k, isSpace c = false ∧ ¬ c = '=' := by
  cases k with
  | nil => simp [goodKey] at h
  | cons c t =>
    by_cases hc : c = '#'
    · rw [goodKey, if_pos hc] at h
      exact absurd h (by simp)
    · rw [goodKey, if_neg hc] at h
      intro d hd
      have hall := List.all_eq_true.mp h d hd
      by_cases hs : isSpace d
      · rw [charKeyOK, if_pos hs] at hall
        exact absurd hall (by simp)
      · by_cases heq : d = '='
        · rw [charKeyOK, if_neg hs, if_pos heq] at hall
          exact absurd hall (by simp)
        · exact ⟨by simpa using hs, heq⟩

theorem goodKey_head (k : Bytes) (h : goodKey k = true) :
    ∀ c, k.head? = some c → ¬ c = '#' := by
  cases k with
  | nil => simp [goodKey] at h
  | cons c t =>
    intro d hd
    rw [List.head?_cons] at hd
    cases hd
    by_cases hc : c = '#'
    · rw [goodKey, if_pos hc] at h
      exact absurd h (by simp)
    · exact hc

theorem goodValue_parts (v : Bytes) (h : goodValue v = true) :
    hasBS v = false ∧ edgeOK v.head? = true ∧ edgeOK v.reverse.head? = true := by
  by_cases hb : hasBS v = true
  · rw [goodValue, if_pos hb] at h
    exact absurd h (by simp)
  · have hb' : hasBS v = false := by simpa using hb
    rw [goodValue, if_neg (by simp [hb'])] at h
    exact ⟨hb', (Bool.and_eq_true _ _).mp h⟩

/-- The serialized line for one secret: `name=escapedValue`. -/
def lineOf (p : Bytes × Bytes) : Bytes := p.1 ++ '=' :: escapeValue p.2

theorem nl_not_mem_lineOf (k v : Bytes) (hk : goodKey k = true) :
    '\n' ∉ lineOf (k, v) := by
  intro hm
  rcases List.mem_append.mp hm with h | h
  · exact absurd (goodKey_chars k hk '\n' h).1 (by decide)
  · rcases List.mem_cons.mp h with h1 | h2
    · exact absurd h1 (by decide)
    · exact nl_not_mem_escEq (escNL v) (nl_not_mem_escNL v) h2

theorem trim_lineOf (k v : Bytes) (hk : goodKey k = true) (hv : goodValue v = true) :
    trimSpace (lineOf (k, v)) = lineOf (k, v) := by
  obtain ⟨hbs, he1, he2⟩ := goodValue_parts v hv
  apply trimSpace_eq_self_edge
  · intro c hc
    rw [lineOf, head?_append_left _ _ (goodKey_ne_nil k hk)] at hc
    cases k with
    | nil => simp [goodKey] at hk
    | cons d t =>
      rw [List.head?_cons] at hc
      have hdc : d = c := by injection hc
      subst hdc
      exact (goodKey_chars _ hk d (List.mem_cons_self d t)).1
  · intro c hc
    rw [lineOf, List.reverse_append, List.reverse_cons,
      head?_append_left _ _ (by simp)] at hc
    cases hvnil : v with
    | nil =>
      subst hvnil
      rw [show escapeValue [] = [] from rfl] at hc
      simp only [List.reverse_nil, List.nil_append, List.head?_cons] at hc
      cases hc
      decide
    | cons d t =>
      subst hvnil
      rw [head?_append_left _ _ (fun hh =>
        escapeValue_ne_nil _ (by simp) (List.reverse_eq_nil_iff.mp hh))] at hc
      exact escapeValue_back _ he2 c hc

theorem parseLine_good (m : SecretMap) (k v : Bytes)
    (hk : goodKey k = true) (hv : goodValue v = true) :
    parseLine m (lineOf (k, v)) = upsert m k v := by
  obtain ⟨hbs, he1, he2⟩ := goodValue_parts v hv
  have htrim := trim_lineOf k v hk hv
  cases k with
  | nil => simp [goodKey] at hk
  | cons c t =>
    have hchars := goodKey_chars _ hk
    have hsplit : splitN2 '=' (lineOf (c :: t, v)) = [c :: t, escapeValue v] :=
      splitN2_append '=' (c :: t) (escapeValue v)
        (fun hh => (hchars '=' hh).2 rfl)
    have hred : parseLine m (lineOf (c :: t, v)) =
        (if c = '#' then m
         else match splitN2 '=' (lineOf (c :: t, v)) with
           | [k2, w2] => upsert m (trimSpace k2) (parseValue (trimSpace w2))
           | _ => m) := by
      simp only [parseLine, htrim]
      rfl
    rw [hred, if_neg (goodKey_head _ hk c rfl), hsplit]
    have htk : trimSpace (c :: t) = c :: t :=
      trimSpace_eq_self_all _ (fun d hd => (hchars d hd).1)
    have htv : trimSpace (escapeValue v) = escapeValue v :=
      trimSpace_eq_self_edge _ (escapeValue_head v he1) (escapeValue_back v he2)
    show upsert m (trimSpace (c :: t)) (parseValue (trimSpace (escapeValue v))) =
      upsert m (c :: t) v
    rw [htk, htv, parseValue_escapeValue v (hasBS_false v hbs)]

theorem splitOnChar_no_sep (sep : Char) (l : Bytes) (h : sep ∉ l) :
    splitOnChar sep l = [l] := by
  induction l with
  | nil => rfl
  | cons c t ih =>
    have hc : ¬ c = sep := fun hh => h (hh ▸ List.mem_cons_self c t)
    have ht : sep ∉ t := fun hh => h (List.mem_cons_of_mem c hh)
    simp [splitOnChar, hc, ih ht]

theorem splitOnChar_append (sep : Char) (l rest : Bytes) (h : sep ∉ l) :
    splitOnChar sep (l ++ sep :: rest) = l :: splitOnChar sep rest := by
  induction l with
  | nil => simp [splitOnChar]
  | cons c t ih =>
    have hc : ¬ c = sep := fun hh => h (hh ▸ List.mem_cons_self c t)
    have ht : sep ∉ t := fun hh => h (List.mem_cons_of_mem c hh)
    simp [splitOnChar, hc, ih ht]

theorem split_join (lines : List Bytes) (hne : lines ≠ [])
    (h : ∀ l ∈ lines, '\n' ∉ l) :
    splitOnChar '\n' (joinChar '\n' lines) = lines := by
  induction lines with
  | nil => exact absurd rfl hne
  | cons l ls ih =>
    cases ls with
    | nil =>
      rw [joinChar, splitOnChar_no_sep '\n' l (h l (List.mem_cons_self l []))]
    | cons l' ls' =>
      rw [joinChar, splitOnChar_append '\n' l _ (h l (List.mem_cons_self l _)),
        ih (by simp) (fun x hx => h x (List.mem_cons_of_mem l hx))]

theorem upsert_not_mem (m : SecretMap) (k v : Bytes) (h : lookupKey m k = none) :
    upsert m k v = m ++ [(k, v)] := by
  induction m with
  | nil => rfl
  | cons p rest ih =>
    obtain ⟨k', v'⟩ := p
    by_cases hk : k' = k
    · rw [lookupKey, if_pos hk] at h
      exact absurd h (by simp)
    · rw [lookupKey, if_neg hk] at h
      rw [upsert, if_neg hk, ih h]
      rfl

theorem lookupKey_append_none (m1 m2 : SecretMap) (k : Bytes)
    (h1 : lookupKey m1 k = none) (h2 : lookupKey m2 k = none) :
    lookupKey (m1 ++ m2) k = none := by
  induction m1 with
  | nil => exact h2
  | cons p rest ih =>
    obtain ⟨k', v'⟩ := p
    by_cases hk : k' = k
    · rw [lookupKey, if_pos hk] at h1
      exact absurd h1 (by simp)
    · rw [lookupKey, if_neg hk] at h1
      rw [List.cons_append, lookupKey, if_neg hk]
      exact ih h1

theorem foldl_parseLine_lines (S : SecretMap) :
    ∀ m : SecretMap,
    (∀ p ∈ S, goodKey p.1 = true ∧ goodValue p.2 = true) →
    S.Pairwise (fun p q => p.1 ≠ q.1) →
    (∀ p ∈ S, lookupKey m p.1 = none) →
    (S.map lineOf).foldl parseLine m = m ++ S := by
  induction S with
  | nil => intro m _ _ _; simp
  | cons p rest ih =>
    intro m hg hd hm
    obtain ⟨k, v⟩ := p
    have hgood := hg (k, v) (List.mem_cons_self _ _)
    rw [List.map_cons, List.foldl_cons,
      parseLine_good m k v hgood.1 hgood.2,
      upsert_not_mem m k v (hm (k, v) (List.mem_cons_self _ _))]
    have hdrest := (List.pairwise_cons.mp hd).2
    have hkrest := (List.pairwise_cons.mp hd).1
    rw [ih (m ++ [(k, v)])
      (fun q hq => hg q (List.mem_cons_of_mem _ hq))
      hdrest
      (fun q hq => lookupKey_append_none m [(k, v)] q.1
        (hm q (List.mem_cons_of_mem _ hq))
        (by rw [lookupKey, if_neg (hkrest q hq)]; rfl))]
    simp

theorem ltStr_cons (a b : Char) (as bs : Bytes) :
    ltStr (a :: as) (b :: bs) =
      if a.toNat < b.toNat then true
      else if b.toNat < a.toNat then false
      else ltStr as bs := rfl

theorem ltStr_irrefl (a : Bytes) : ltStr a a = false := by
  induction a with
  | nil => rfl
  | cons c t ih =>
    rw [ltStr_cons, if_neg (by omega), if_neg (by omega)]
    exact ih

theorem ltStr_asymm (a : Bytes) : ∀ b, ltStr a b = true → ltStr b a = false := by
  induction a with
  | nil =>
    intro b h
    cases b with
    | nil => simp [ltStr] at h
    | cons d s => rfl
  | cons c t ih =>
    intro b h
    cases b with
    | nil => simp [ltStr] at h
    | cons d s =>
      rw [ltStr_cons] at h
      rw [ltStr_cons]
      by_cases h1 : c.toNat < d.toNat
      · rw [if_neg (by omega), if_pos h1]
      · by_cases h2 : d.toNat < c.toNat
        · rw [if_neg h1, if_pos h2] at h
          exact absurd h (by simp)
        · rw [if_neg h1, if_neg h2] at h
          rw [if_neg h2, if_neg h1]
          exact ih s h

theorem ltStr_ne (a b : Bytes) (h : ltStr a b = true) : a ≠ b := by
  intro hh
  subst hh
  rw [ltStr_irrefl] at h
  exact absurd h (by simp)

theorem sortStrings_sorted_id (l : List Bytes)
    (h : l.Pairwise (fun a b => ltStr a b = true)) : sortStrings l = l := by
  induction l with
  | nil => rfl
  | cons x rest ih =>
    rw [sortStrings, ih (List.pairwise_cons.mp h).2]
    cases rest with
    | nil => rfl
    | cons y t =>
      have hxy : ltStr x y = true :=
        (List.pairwise_cons.mp h).1 y (List.mem_cons_self y t)
      rw [insSorted, if_neg (by simp [ltStr_asymm x y hxy])]

theorem names_map (S : SecretMap) (h : S.Pairwise (fun p q => p.1 ≠ q.1)) :
    (S.map Prod.fst).map
      (fun n => n ++ '=' :: escapeValue ((lookupKey S n).getD [])) =
      S.map lineOf := by
  induction S with
  | nil => rfl
  | cons p rest ih =>
    obtain ⟨k, v⟩ := p
    have hhead := (List.pairwise_cons.mp h).1
    have htail := (List.pairwise_cons.mp h).2
    simp only [List.map_cons]
    congr 1
    · show k ++ '=' :: escapeValue ((lookupKey ((k, v) :: rest) k).getD []) = lineOf (k, v)
      rw [lookupKey, if_pos rfl]
      rfl
    · have hcongr : (rest.map Prod.fst).map
          (fun n => n ++ '=' :: escapeValue ((lookupKey ((k, v) :: rest) n).getD [])) =
          (rest.map Prod.fst).map
          (fun n => n ++ '=' :: escapeValue ((lookupKey rest n).getD [])) :=
        List.map_congr_left (fun n hn => by
          obtain ⟨q, hq, hqn⟩ := List.mem_map.mp hn
          subst hqn
          rw [lookupKey, if_neg (hhead q hq)])
      rw [hcongr, ih htail]

theorem saveAllContent_sorted (S : SecretMap)
    (hs : S.Pairwise (fun p q => ltStr p.1 q.1 = true)) :
    saveAllContent S = joinChar '\n' (S.map lineOf) := by
  have hne : S.Pairwise (fun p q => p.1 ≠ q.1) :=
    hs.imp (fun hpq => ltStr_ne _ _ hpq)
  have hsortid : sortStrings (S.map Prod.fst) = S.map Prod.fst :=
    sortStrings_sorted_id _ (by rw [List.pairwise_map]; exact hs)
  simp only [saveAllContent]
  rw [hsortid, names_map S hne]

/-- C1 counterexample: the escaping does not escape literal backslashes, so
the two-character value backslash-`n` serializes to the same line as a
newline value; parsing the serialization of `{"p": "\\n"}` returns
`{"p": "\n"}`, not the original map. -/
theorem codec_roundtrip_fails_on_backslash :
    parseContent (saveAllContent [(['p'], ['\\', 'n'])]) ≠ [(['p'], ['\\', 'n'])] ∧
    parseContent (saveAllContent [(['p'], ['\\', 'n'])]) = [(['p'], ['\n'])] := by
  exact ⟨by decide, by decide⟩

/-- C1 amended: the codec round-trip `parse (serialize S) = S` holds for
every secret set `S` (canonically represented as an association list in
strictly increasing key order) whose keys are nonempty, free of space runes
and `=`, and do not start with `#`, and whose values contain no literal
backslash and whose first and last characters survive trimming (a newline,
an `=`, or any non-space rune). In particular values may contain `=`,
newlines, and be empty — the cases the claim singles out — but not a
literal backslash, and keys/values may not carry leading or trailing
whitespace. -/
theorem codec_roundtrip (S : SecretMap)
    (hsorted : S.Pairwise (fun p q => ltStr p.1 q.1 = true))
    (hgood : ∀ p ∈ S, goodKey p.1 = true ∧ goodValue p.2 = true) :
    parseContent (saveAllContent S) = S := by
  have hne : S.Pairwise (fun p q => p.1 ≠ q.1) :=
    hsorted.imp (fun hpq => ltStr_ne _ _ hpq)
  rw [saveAllContent_sorted S hsorted]
  cases S with
  | nil => decide
  | cons p rest =>
    rw [parseContent, split_join ((p :: rest).map lineOf) (by simp)
      (fun l hl => by
        obtain ⟨q, hq, hql⟩ := List.mem_map.mp hl
        subst hql
        exact nl_not_mem_lineOf q.1 q.2 (hgood q hq).1)]
    have hfold := foldl_parseLine_lines (p :: rest) [] hgood hne (fun q hq => rfl)
    simpa using hfold

/-- C1 witness: the spec's concrete scenario — keys `kimi` and `zai` in
sorted order, one value containing `=` — round-trips exactly. -/
theorem codec_roundtrip_witness :
    parseContent (saveAllContent
      [(['k', 'i', 'm', 'i'],
        ['s', 'k', '-', 'o', 't', 'h', 'e', 'r', '=', '4', '5', '6']),
       (['z', 'a', 'i'],
        ['s', 'k', '-', 't', 'e', 's', 't', '-', '1', '2', '3'])]) =
      [(['k', 'i', 'm', 'i'],
        ['s', 'k', '-', 'o', 't', 'h', 'e', 'r', '=', '4', '5', '6']),
       (['z', 'a', 'i'],
        ['s', 'k', '-', 't', 'e', 's', 't', '-', '1', '2', '3'])] :=
  codec_roundtrip _ (by decide) (by decide)
